import Mathlib

/-!
# Verification of the proquint codec (`src/lib.rs`)

A shallow embedding of the proquint library: 16-bit values are encoded as
5-letter consonant/vowel labels, identifiers concatenate labels, parsing
validates each character against the alphabet expected at its position.

Bytes are modelled as `Nat` (ASCII codes); `Vec<u8>` as `List Nat`;
`u16` values as `Nat`, taken `% 65536` where the Rust `u16` arithmetic
wraps; fallible operations return `Except` /
`Option` (the `panic!` branch of `to_ints` is modelled as `Option.none`).
-/

namespace ProquintSpec

/-- `const UINT2CONSONANT: &[u8] = b"bdfghjklmnprstvz"` (16 consonants). -/
def UINT2CONSONANT : List Nat :=
  [98, 100, 102, 103, 104, 106, 107, 108, 109, 110, 112, 114, 115, 116, 118, 122]

/-- `const UINT2VOWEL: &[u8] = b"aiou"` (4 vowels). -/
def UINT2VOWEL : List Nat := [97, 105, 111, 117]

/-- `fn quint_to_ascii(u: u16, out: &mut Vec<u8>)`: pushes the five bytes of
the label of `u` onto `out`, slicing the 16 bits into fields 4,2,4,2,4,
most-significant first, through the two alphabet tables. -/
def quint_to_ascii (u : Nat) (out : List Nat) : List Nat :=
  out ++ [UINT2CONSONANT.getD ((0xf000 &&& u) >>> 12) 0,
          UINT2VOWEL.getD ((0x0c00 &&& u) >>> 10) 0,
          UINT2CONSONANT.getD ((0x03c0 &&& u) >>> 6) 0,
          UINT2VOWEL.getD ((0x0030 &&& u) >>> 4) 0,
          UINT2CONSONANT.getD (0x000f &&& u) 0]

/-- `pub struct Proquint { inner: Vec<u8> }` — the internally stored ASCII chars. -/
structure Proquint where
  inner : List Nat
  deriving DecidableEq, Repr

/-- `Proquint::from_vec(ints: Vec<u16>)`. -/
def Proquint.from_vec (ints : List Nat) : Proquint :=
  Proquint.mk (ints.foldl (fun v i => quint_to_ascii i v) [])

/-- `Proquint::from_slice(ints: &[u16])`. -/
def Proquint.from_slice (ints : List Nat) : Proquint :=
  Proquint.mk (ints.foldl (fun v i => quint_to_ascii i v) [])

/-- `FromIterator<u16> for Proquint`, the iterator taken as a list. -/
def Proquint.from_iter (ints : List Nat) : Proquint :=
  Proquint.mk (ints.foldl (fun v i => quint_to_ascii i v) [])

/-- `Proquint::append(&mut self, u: u16)`. -/
def Proquint.append (p : Proquint) (u : Nat) : Proquint :=
  Proquint.mk (quint_to_ascii u p.inner)

/-- `pub enum ProquintError`. -/
inductive ProquintError where
  | InvalidLabelLength
  | InvalidConsonant (c : Nat)
  | InvalidVowel (c : Nat)
  deriving DecidableEq, Repr

/-- `Proquint::append_label(&mut self, label: &[u8])`: validates the five
characters of `label` left to right (consonant, vowel, consonant, vowel,
consonant) and pushes them onto `inner`; returns the first error found. -/
def Proquint.append_label (inner : List Nat) (label : List Nat) :
    Except ProquintError (List Nat) :=
  if label.length ≠ 5 then .error .InvalidLabelLength
  else if UINT2CONSONANT.contains (label.getD 0 0) then
    if UINT2VOWEL.contains (label.getD 1 0) then
      if UINT2CONSONANT.contains (label.getD 2 0) then
        if UINT2VOWEL.contains (label.getD 3 0) then
          if UINT2CONSONANT.contains (label.getD 4 0) then
            .ok (inner ++ [label.getD 0 0, label.getD 1 0, label.getD 2 0,
                           label.getD 3 0, label.getD 4 0])
          else .error (.InvalidConsonant (label.getD 4 0))
        else .error (.InvalidVowel (label.getD 3 0))
      else .error (.InvalidConsonant (label.getD 2 0))
    else .error (.InvalidVowel (label.getD 1 0))
  else .error (.InvalidConsonant (label.getD 0 0))

/-- `self.inner.chunks(5)`: consecutive 5-byte groups (last one may be short). -/
def chunks5 : List Nat → List (List Nat)
  | [] => []
  | a :: b :: c :: d :: e :: rest => [a, b, c, d, e] :: chunks5 rest
  | l => [l]

/-- One iteration of the decoding loop of `to_ints`: `val <<= 4; val += idx`
for a consonant, `val <<= 2; val += idx` for a vowel (`u16` wrapping
arithmetic, hence `% 65536`), `panic!` (modelled as `none`) otherwise. -/
def decode_step (val c : Nat) : Option Nat :=
  if UINT2CONSONANT.contains c then
    some (((val <<< 4) + UINT2CONSONANT.findIdx (fun x => x == c)) % 65536)
  else if UINT2VOWEL.contains c then
    some (((val <<< 2) + UINT2VOWEL.findIdx (fun x => x == c)) % 65536)
  else none

/-- The inner `for c in label` loop of `to_ints`. -/
def decode_chars (val : Nat) : List Nat → Option Nat
  | [] => some val
  | c :: cs =>
    match decode_step val c with
    | some val2 => decode_chars val2 cs
    | none => none

/-- Decoding of one 5-character chunk inside `to_ints` (accumulator starts at 0). -/
def decode_label (label : List Nat) : Option Nat :=
  decode_chars 0 label

/-- The outer `for label in self.inner.chunks(5)` loop of `to_ints`. -/
def decode_chunks : List (List Nat) → Option (List Nat)
  | [] => some []
  | c :: cs =>
    match decode_label c with
    | some v =>
      match decode_chunks cs with
      | some vs => some (v :: vs)
      | none => none
    | none => none

/-- `Proquint::to_ints(&self) -> Vec<u16>`; the `panic!("BUG: found invalid
chars in Proquint")` branch is modelled as `none`. -/
def Proquint.to_ints (p : Proquint) : Option (List Nat) :=
  decode_chunks (chunks5 p.inner)

/-- The `for label in s.split('-')` loop of `from_str` past the length check:
append each label in turn, aborting at the first error. -/
def append_labels (inner : List Nat) : List (List Nat) → Except ProquintError (List Nat)
  | [] => .ok inner
  | l :: ls =>
    match Proquint.append_label inner l with
    | .ok inner2 => append_labels inner2 ls
    | .error e => .error e

/-- The separator branch of `from_str`: each segment must be exactly 5
characters before `append_label` is called on it. -/
def append_labels_checked (inner : List Nat) : List (List Nat) → Except ProquintError (List Nat)
  | [] => .ok inner
  | l :: ls =>
    if l.length ≠ 5 then .error .InvalidLabelLength
    else
      match Proquint.append_label inner l with
      | .ok inner2 => append_labels_checked inner2 ls
      | .error e => .error e

/-- `FromStr for Proquint`: if the text contains `'-'` (byte 45), split on it
and require each segment to have length exactly 5; otherwise chunk the bytes
into consecutive groups of 5. -/
def Proquint.from_str (s : List Nat) : Except ProquintError Proquint :=
  if s.contains 45 then
    match append_labels_checked [] (s.splitOn 45) with
    | .ok inner => .ok (Proquint.mk inner)
    | .error e => .error e
  else
    match append_labels [] (chunks5 s) with
    | .ok inner => .ok (Proquint.mk inner)
    | .error e => .error e

/-- `Display for Proquint`: writes the 5-byte chunks joined by `'-'`
(byte 45), no separator before the first chunk. -/
def Proquint.to_text (p : Proquint) : List Nat :=
  match chunks5 p.inner with
  | [] => []
  | c :: cs => cs.foldl (fun acc chunk => acc ++ 45 :: chunk) c

/-- `impl AsProquint for u32::into_proquint`. -/
def u32_into_proquint (v : Nat) (p : Proquint) : Proquint :=
  (p.append ((0xffff0000 &&& v) >>> 16)).append (0x0000ffff &&& v)

/-- `impl AsProquint for u64::into_proquint`. -/
def u64_into_proquint (v : Nat) (p : Proquint) : Proquint :=
  ((((p.append ((0xffff000000000000 &&& v) >>> 48)).append
      ((0x0000ffff00000000 &&& v) >>> 32)).append
      ((0x00000000ffff0000 &&& v) >>> 16)).append
      (0x000000000000ffff &&& v))

/-- `impl AsProquint for Ipv4Addr::into_proquint`, on the four octets. -/
def ipv4_into_proquint (o0 o1 o2 o3 : Nat) (p : Proquint) : Proquint :=
  (p.append ((o0 <<< 8) ||| o1)).append ((o2 <<< 8) ||| o3)

/-- `AsProquint::as_proquint`: run `into_proquint` on `Proquint::from_vec(vec![])`. -/
def u32_as_proquint (v : Nat) : Proquint := u32_into_proquint v (Proquint.from_vec [])

/-- `AsProquint::as_proquint` for `u64`. -/
def u64_as_proquint (v : Nat) : Proquint := u64_into_proquint v (Proquint.from_vec [])

/-- `AsProquint::as_proquint` for `Ipv4Addr`. -/
def ipv4_as_proquint (o0 o1 o2 o3 : Nat) : Proquint :=
  ipv4_into_proquint o0 o1 o2 o3 (Proquint.from_vec [])

deriving instance DecidableEq for Except

/-! ## Alphabet table facts -/

theorem cons_length : UINT2CONSONANT.length = 16 := by decide

theorem vow_length : UINT2VOWEL.length = 4 := by decide

theorem consGetD_contains :
    ∀ i, i < 16 → UINT2CONSONANT.contains (UINT2CONSONANT.getD i 0) = true := by decide

theorem vowGetD_contains :
    ∀ i, i < 4 → UINT2VOWEL.contains (UINT2VOWEL.getD i 0) = true := by decide

theorem vowGetD_not_cons :
    ∀ i, i < 4 → UINT2CONSONANT.contains (UINT2VOWEL.getD i 0) = false := by decide

theorem cons_findIdx :
    ∀ i, i < 16 → UINT2CONSONANT.findIdx (fun x => x == UINT2CONSONANT.getD i 0) = i := by
  decide

theorem vow_findIdx :
    ∀ i, i < 4 → UINT2VOWEL.findIdx (fun x => x == UINT2VOWEL.getD i 0) = i := by decide

theorem cons_no_dash : ∀ c ∈ UINT2CONSONANT, c ≠ 45 := by decide

theorem vow_no_dash : ∀ c ∈ UINT2VOWEL, c ≠ 45 := by decide

/-! ## Bit-field extraction: masks and shifts as division and remainder -/

theorem and_mask_shift (k s v : Nat) :
    (((2 ^ k - 1) <<< s) &&& v) >>> s = v / 2 ^ s % 2 ^ k := by
  apply Nat.eq_of_testBit_eq
  intro i
  rw [← Nat.shiftRight_eq_div_pow]
  simp only [Nat.testBit_shiftRight, Nat.testBit_and, Nat.testBit_mod_two_pow,
    Nat.testBit_shiftLeft, Nat.testBit_two_pow_sub_one]
  simp [Nat.add_sub_cancel_left, Nat.le_add_right, Bool.and_comm]

theorem mask_f000 (v : Nat) : (0xf000 &&& v) >>> 12 = v / 4096 % 16 := by
  have h := and_mask_shift 4 12 v
  rw [Nat.shiftLeft_eq] at h
  norm_num at h
  exact h

theorem mask_0c00 (v : Nat) : (0x0c00 &&& v) >>> 10 = v / 1024 % 4 := by
  have h := and_mask_shift 2 10 v
  rw [Nat.shiftLeft_eq] at h
  norm_num at h
  exact h

theorem mask_03c0 (v : Nat) : (0x03c0 &&& v) >>> 6 = v / 64 % 16 := by
  have h := and_mask_shift 4 6 v
  rw [Nat.shiftLeft_eq] at h
  norm_num at h
  exact h

theorem mask_0030 (v : Nat) : (0x0030 &&& v) >>> 4 = v / 16 % 4 := by
  have h := and_mask_shift 2 4 v
  rw [Nat.shiftLeft_eq] at h
  norm_num at h
  exact h

theorem mask_000f (v : Nat) : 0x000f &&& v = v % 16 := by
  rw [Nat.and_comm]
  simpa using Nat.and_pow_two_sub_one_eq_mod v 4

/-! ## The encoded label of one 16-bit value -/

/-- The five bytes pushed by `quint_to_ascii` for value `u`. -/
def encodeLabel (u : Nat) : List Nat := quint_to_ascii u []

theorem quint_to_ascii_eq (u : Nat) (out : List Nat) :
    quint_to_ascii u out = out ++ encodeLabel u := by
  simp [quint_to_ascii, encodeLabel]

theorem encodeLabel_eq (u : Nat) :
    encodeLabel u = [UINT2CONSONANT.getD (u / 4096 % 16) 0,
      UINT2VOWEL.getD (u / 1024 % 4) 0, UINT2CONSONANT.getD (u / 64 % 16) 0,
      UINT2VOWEL.getD (u / 16 % 4) 0, UINT2CONSONANT.getD (u % 16) 0] := by
  simp [encodeLabel, quint_to_ascii, mask_f000, mask_0c00, mask_03c0, mask_0030, mask_000f]

theorem encodeLabel_length (u : Nat) : (encodeLabel u).length = 5 := by
  rw [encodeLabel_eq]
  rfl

/-! ## Decoding a constructed label -/

theorem decode_step_cons (val i : Nat) (h : i < 16) :
    decode_step val (UINT2CONSONANT.getD i 0) = some ((val * 16 + i) % 65536) := by
  simp only [decode_step, consGetD_contains i h, if_true, cons_findIdx i h, Nat.shiftLeft_eq]

theorem decode_step_vow (val i : Nat) (h : i < 4) :
    decode_step val (UINT2VOWEL.getD i 0) = some ((val * 4 + i) % 65536) := by
  simp only [decode_step, vowGetD_not_cons i h, vowGetD_contains i h, Bool.false_eq_true,
    if_false, if_true, vow_findIdx i h, Nat.shiftLeft_eq]

theorem decode_label_indices (c0 v1 c2 v3 c4 : Nat)
    (h0 : c0 < 16) (h1 : v1 < 4) (h2 : c2 < 16) (h3 : v3 < 4) (h4 : c4 < 16) :
    decode_label [UINT2CONSONANT.getD c0 0, UINT2VOWEL.getD v1 0,
      UINT2CONSONANT.getD c2 0, UINT2VOWEL.getD v3 0, UINT2CONSONANT.getD c4 0]
      = some ((((c0 * 4 + v1) * 16 + c2) * 4 + v3) * 16 + c4) := by
  simp only [decode_label, decode_chars, decode_step_cons _ _ h0, decode_step_vow _ _ h1,
    decode_step_cons _ _ h2, decode_step_vow _ _ h3, decode_step_cons _ _ h4]
  congr 1
  omega

theorem decode_encode (u : Nat) (hu : u < 65536) :
    decode_label (encodeLabel u) = some u := by
  rw [encodeLabel_eq,
    decode_label_indices _ _ _ _ _ (Nat.mod_lt _ (by norm_num)) (Nat.mod_lt _ (by norm_num))
      (Nat.mod_lt _ (by norm_num)) (Nat.mod_lt _ (by norm_num)) (Nat.mod_lt _ (by norm_num))]
  congr 1
  omega

/-! ## Claim C1 -/

/-- C1: for every 16-bit value `v`, the per-chunk decoding performed by
`to_ints` inverts `quint_to_ascii`: `decode_label(encode_u16(v)) == v`. -/
theorem proquint_C1 : ∀ v : Nat, v < 65536 → decode_label (quint_to_ascii v []) = some v :=
  fun v hv => decode_encode v hv

/-- C1 witness at `v = 43690` (`0xaaaa`). -/
theorem proquint_C1_witness : decode_label (quint_to_ascii 43690 []) = some 43690 :=
  proquint_C1 43690 (by decide)

/-! ## Well-formed labels -/

/-- A well-formed label: exactly 5 bytes, consonant-vowel-consonant-vowel-consonant. -/
def validLabel (l : List Nat) : Bool :=
  l.length == 5 &&
  (UINT2CONSONANT.contains (l.getD 0 0) && UINT2VOWEL.contains (l.getD 1 0) &&
   UINT2CONSONANT.contains (l.getD 2 0) && UINT2VOWEL.contains (l.getD 3 0) &&
   UINT2CONSONANT.contains (l.getD 4 0))

theorem validLabel_iff (l : List Nat) :
    validLabel l = true ↔ l.length = 5 ∧
      UINT2CONSONANT.contains (l.getD 0 0) = true ∧ UINT2VOWEL.contains (l.getD 1 0) = true ∧
      UINT2CONSONANT.contains (l.getD 2 0) = true ∧ UINT2VOWEL.contains (l.getD 3 0) = true ∧
      UINT2CONSONANT.contains (l.getD 4 0) = true := by
  simp [validLabel, Bool.and_eq_true, and_assoc]

theorem validLabel_length (l : List Nat) (h : validLabel l = true) : l.length = 5 :=
  ((validLabel_iff l).1 h).1

theorem encodeLabel_valid (u : Nat) : validLabel (encodeLabel u) = true := by
  rw [validLabel_iff, encodeLabel_eq]
  refine ⟨rfl, ?_, ?_, ?_, ?_, ?_⟩
  · exact consGetD_contains _ (Nat.mod_lt _ (by norm_num))
  · exact vowGetD_contains _ (Nat.mod_lt _ (by norm_num))
  · exact consGetD_contains _ (Nat.mod_lt _ (by norm_num))
  · exact vowGetD_contains _ (Nat.mod_lt _ (by norm_num))
  · exact consGetD_contains _ (Nat.mod_lt _ (by norm_num))

theorem exists_five (l : List Nat) (h : l.length = 5) :
    ∃ a b c d e, l = [a, b, c, d, e] := by
  rcases l with _ | ⟨a, _ | ⟨b, _ | ⟨c, _ | ⟨d, _ | ⟨e, rest⟩⟩⟩⟩⟩ <;>
      simp only [List.length_cons, List.length_nil] at h <;> try omega
  exact ⟨a, b, c, d, e, by
    rw [List.eq_nil_of_length_eq_zero (show rest.length = 0 by omega)]⟩

theorem validLabel_five (a b c d e : Nat) :
    validLabel [a, b, c, d, e] = true ↔
      a ∈ UINT2CONSONANT ∧ b ∈ UINT2VOWEL ∧ c ∈ UINT2CONSONANT ∧
      d ∈ UINT2VOWEL ∧ e ∈ UINT2CONSONANT := by
  simp [validLabel, and_assoc]

/-! ## `append_label` characterization -/

theorem append_label_of_valid (inner l : List Nat) (h : validLabel l = true) :
    Proquint.append_label inner l = .ok (inner ++ l) := by
  obtain ⟨a, b, c, d, e, rfl⟩ := exists_five l (validLabel_length l h)
  obtain ⟨h0, h1, h2, h3, h4⟩ := (validLabel_five a b c d e).1 h
  simp [Proquint.append_label, h0, h1, h2, h3, h4]

theorem append_label_ok (inner l out : List Nat)
    (h : Proquint.append_label inner l = .ok out) :
    validLabel l = true ∧ out = inner ++ l := by
  by_cases hL : l.length = 5
  · obtain ⟨a, b, c, d, e, rfl⟩ := exists_five l hL
    by_cases c0 : a ∈ UINT2CONSONANT
    · by_cases c1 : b ∈ UINT2VOWEL
      · by_cases c2 : c ∈ UINT2CONSONANT
        · by_cases c3 : d ∈ UINT2VOWEL
          · by_cases c4 : e ∈ UINT2CONSONANT
            · refine ⟨(validLabel_five a b c d e).2 ⟨c0, c1, c2, c3, c4⟩, ?_⟩
              simp [Proquint.append_label, c0, c1, c2, c3, c4] at h
              exact h.symm
            · simp [Proquint.append_label, c0, c1, c2, c3, c4] at h
          · simp [Proquint.append_label, c0, c1, c2, c3] at h
        · simp [Proquint.append_label, c0, c1, c2] at h
      · simp [Proquint.append_label, c0, c1] at h
    · simp [Proquint.append_label, c0] at h
  · simp [Proquint.append_label, hL] at h

theorem append_label_len_err (inner l : List Nat) (h : l.length ≠ 5) :
    Proquint.append_label inner l = .error .InvalidLabelLength := by
  simp [Proquint.append_label, h]

theorem append_label_err_shape (inner l : List Nat) (h5 : l.length = 5)
    (hv : validLabel l = false) :
    ∃ e, Proquint.append_label inner l = .error e ∧
      e ≠ ProquintError.InvalidLabelLength := by
  obtain ⟨a, b, c, d, e, rfl⟩ := exists_five l h5
  by_cases c0 : a ∈ UINT2CONSONANT
  · by_cases c1 : b ∈ UINT2VOWEL
    · by_cases c2 : c ∈ UINT2CONSONANT
      · by_cases c3 : d ∈ UINT2VOWEL
        · by_cases c4 : e ∈ UINT2CONSONANT
          · exact absurd ((validLabel_five a b c d e).2 ⟨c0, c1, c2, c3, c4⟩) (by simp [hv])
          · exact ⟨ProquintError.InvalidConsonant e,
              by simp [Proquint.append_label, c0, c1, c2, c3, c4], by simp⟩
        · exact ⟨ProquintError.InvalidVowel d,
            by simp [Proquint.append_label, c0, c1, c2, c3], by simp⟩
      · exact ⟨ProquintError.InvalidConsonant c,
          by simp [Proquint.append_label, c0, c1, c2], by simp⟩
    · exact ⟨ProquintError.InvalidVowel b,
        by simp [Proquint.append_label, c0, c1], by simp⟩
  · exact ⟨ProquintError.InvalidConsonant a,
      by simp [Proquint.append_label, c0], by simp⟩

/-! ## `chunks5` facts -/

theorem chunks5_append5 (l r : List Nat) (h : l.length = 5) :
    chunks5 (l ++ r) = l :: chunks5 r := by
  obtain ⟨a, b, c, d, e, rfl⟩ := exists_five l h
  rfl

theorem chunks5_flatten (L : List (List Nat)) (h : ∀ l ∈ L, l.length = 5) :
    chunks5 L.flatten = L := by
  induction L with
  | nil => rfl
  | cons l Ls ih =>
    rw [List.flatten_cons, chunks5_append5 l _ (h l (by simp)),
      ih (fun x hx => h x (by simp [hx]))]

/-! ## Constructors build flattened label sequences -/

theorem foldl_quint (S acc : List Nat) :
    S.foldl (fun v i => quint_to_ascii i v) acc = acc ++ (S.map encodeLabel).flatten := by
  have hfun : (fun (v : List Nat) (i : Nat) => quint_to_ascii i v)
      = fun v i => v ++ encodeLabel i := by
    funext v i
    exact quint_to_ascii_eq i v
  rw [hfun]
  induction S generalizing acc with
  | nil => simp
  | cons v S ih => simp [List.foldl_cons, ih, List.append_assoc]

theorem from_slice_inner (S : List Nat) :
    (Proquint.from_slice S).inner = (S.map encodeLabel).flatten := by
  simp [Proquint.from_slice, foldl_quint]

theorem from_vec_inner (S : List Nat) :
    (Proquint.from_vec S).inner = (S.map encodeLabel).flatten := by
  simp [Proquint.from_vec, foldl_quint]

theorem from_iter_inner (S : List Nat) :
    (Proquint.from_iter S).inner = (S.map encodeLabel).flatten := by
  simp [Proquint.from_iter, foldl_quint]

/-! ## `append_labels` on valid label sequences -/

theorem append_labels_of_valid (L : List (List Nat)) (inner : List Nat)
    (h : ∀ l ∈ L, validLabel l = true) :
    append_labels inner L = .ok (inner ++ L.flatten) := by
  induction L generalizing inner with
  | nil => simp [append_labels]
  | cons l Ls ih =>
    simp only [append_labels, append_label_of_valid inner l (h l (by simp)),
      ih _ (fun x hx => h x (by simp [hx])), List.flatten_cons, List.append_assoc]

theorem append_labels_checked_of_valid (L : List (List Nat)) (inner : List Nat)
    (h : ∀ l ∈ L, validLabel l = true) :
    append_labels_checked inner L = .ok (inner ++ L.flatten) := by
  induction L generalizing inner with
  | nil => simp [append_labels_checked]
  | cons l Ls ih =>
    have h5 : l.length = 5 := validLabel_length l (h l (by simp))
    simp only [append_labels_checked, h5, ne_eq, not_true_eq_false, if_false,
      append_label_of_valid inner l (h l (by simp)),
      ih _ (fun x hx => h x (by simp [hx])), List.flatten_cons, List.append_assoc]

theorem append_labels_ok_inv (L : List (List Nat)) (inner out : List Nat)
    (h : append_labels inner L = .ok out) :
    (∀ l ∈ L, validLabel l = true) ∧ out = inner ++ L.flatten := by
  induction L generalizing inner with
  | nil =>
    simp only [append_labels, Except.ok.injEq] at h
    simp [h]
  | cons l Ls ih =>
    simp only [append_labels] at h
    cases hstep : Proquint.append_label inner l with
    | error e => rw [hstep] at h; exact absurd h (by simp)
    | ok inner2 =>
      rw [hstep] at h
      obtain ⟨hv, rfl⟩ := append_label_ok _ _ _ hstep
      obtain ⟨hall, hout⟩ := ih _ h
      refine ⟨?_, by simp [hout, List.append_assoc]⟩
      intro x hx
      rcases List.mem_cons.1 hx with rfl | hx
      · exact hv
      · exact hall x hx

theorem append_labels_checked_ok_inv (L : List (List Nat)) (inner out : List Nat)
    (h : append_labels_checked inner L = .ok out) :
    (∀ l ∈ L, validLabel l = true) ∧ out = inner ++ L.flatten := by
  induction L generalizing inner with
  | nil =>
    simp only [append_labels_checked, Except.ok.injEq] at h
    simp [h]
  | cons l Ls ih =>
    simp only [append_labels_checked] at h
    by_cases h5 : l.length = 5
    · simp only [h5, ne_eq, not_true_eq_false, if_false] at h
      cases hstep : Proquint.append_label inner l with
      | error e => rw [hstep] at h; exact absurd h (by simp)
      | ok inner2 =>
        rw [hstep] at h
        obtain ⟨hv, rfl⟩ := append_label_ok _ _ _ hstep
        obtain ⟨hall, hout⟩ := ih _ h
        refine ⟨?_, by simp [hout, List.append_assoc]⟩
        intro x hx
        rcases List.mem_cons.1 hx with rfl | hx
        · exact hv
        · exact hall x hx
    · simp [h5] at h

/-! ## Rendering: `to_text` as intercalation with the dash byte -/

theorem intercalate_single (l : List Nat) : List.intercalate [45] [l] = l := by
  simp [List.intercalate]

theorem intercalate_two (l₁ l₂ : List Nat) (L : List (List Nat)) :
    List.intercalate [45] (l₁ :: l₂ :: L) = l₁ ++ 45 :: List.intercalate [45] (l₂ :: L) := by
  simp [List.intercalate, List.intersperse_cons₂, List.flatten_cons]

theorem intercalate_head_append (x y : List Nat) (L : List (List Nat)) :
    List.intercalate [45] ((x ++ y) :: L) = x ++ List.intercalate [45] (y :: L) := by
  cases L with
  | nil => simp [intercalate_single]
  | cons e es => rw [intercalate_two, intercalate_two, List.append_assoc]

theorem foldl_dash (cs : List (List Nat)) (c : List Nat) :
    cs.foldl (fun acc chunk => acc ++ 45 :: chunk) c = List.intercalate [45] (c :: cs) := by
  induction cs generalizing c with
  | nil => simp [intercalate_single]
  | cons d ds ih =>
    rw [List.foldl_cons]
    rw [ih (c ++ 45 :: d), show c ++ 45 :: d = (c ++ [45]) ++ d by simp,
      intercalate_head_append, intercalate_two]
    simp

theorem to_text_eq (p : Proquint) :
    p.to_text = List.intercalate [45] (chunks5 p.inner) := by
  rw [Proquint.to_text]
  cases hc : chunks5 p.inner with
  | nil => simp [List.intercalate]
  | cons c cs => exact foldl_dash cs c

/-! ## Dashes never occur inside valid labels -/

theorem validLabel_no_dash (l : List Nat) (h : validLabel l = true) : (45 : Nat) ∉ l := by
  obtain ⟨a, b, c, d, e, rfl⟩ := exists_five l (validLabel_length l h)
  obtain ⟨h0, h1, h2, h3, h4⟩ := (validLabel_five a b c d e).1 h
  intro hm
  simp only [List.mem_cons, List.not_mem_nil, or_false] at hm
  rcases hm with rfl | rfl | rfl | rfl | rfl
  · exact absurd h0 (by decide)
  · exact absurd h1 (by decide)
  · exact absurd h2 (by decide)
  · exact absurd h3 (by decide)
  · exact absurd h4 (by decide)

theorem dash_mem_intercalate (l₁ l₂ : List Nat) (L : List (List Nat)) :
    (45 : Nat) ∈ List.intercalate [45] (l₁ :: l₂ :: L) := by
  rw [intercalate_two]
  simp

/-! ## `splitOn 45` inverts intercalation -/

theorem splitOn_eq_splitOnP (s : List Nat) :
    s.splitOn 45 = s.splitOnP (fun x => x == 45) := rfl

theorem splitOn_dash_intercalate (L : List (List Nat)) (hL : L ≠ [])
    (h : ∀ l ∈ L, (45 : Nat) ∉ l) :
    (List.intercalate [45] L).splitOn 45 = L := by
  induction L with
  | nil => exact absurd rfl hL
  | cons l L' ih =>
    cases L' with
    | nil =>
      rw [intercalate_single, splitOn_eq_splitOnP]
      refine List.splitOnP_eq_single _ _ (fun x hx => ?_)
      simp only [beq_iff_eq]
      exact fun he => h l (by simp) (he ▸ hx)
    | cons l₂ L'' =>
      rw [intercalate_two, splitOn_eq_splitOnP,
        List.splitOnP_first _ l (fun x hx => by
          simp only [beq_iff_eq]
          exact fun he => h l (by simp) (he ▸ hx)) 45 (by simp),
        ← splitOn_eq_splitOnP, ih (by simp) (fun x hx => h x (by simp [hx]))]

/-! ## Parsing the rendered form of a valid label sequence -/

theorem from_str_intercalate (L : List (List Nat)) (h : ∀ l ∈ L, validLabel l = true) :
    Proquint.from_str (List.intercalate [45] L) = .ok (Proquint.mk L.flatten) := by
  cases L with
  | nil => decide
  | cons l₁ L' =>
    cases L' with
    | nil =>
      rw [intercalate_single]
      have hv := h l₁ (by simp)
      have hnod : ¬ (l₁.contains 45 = true) := by
        simp only [List.contains, List.elem_eq_mem, decide_eq_true_eq]
        exact validLabel_no_dash l₁ hv
      rw [Proquint.from_str, if_neg hnod,
        show chunks5 l₁ = [l₁] from by
          have := chunks5_append5 l₁ [] (validLabel_length l₁ hv)
          simpa using this,
        append_labels_of_valid _ _ (by simpa using hv)]
      simp
    | cons l₂ L'' =>
      have hd : (List.intercalate [45] (l₁ :: l₂ :: L'')).contains 45 = true := by
        simp only [List.contains, List.elem_eq_mem, decide_eq_true_eq]
        exact dash_mem_intercalate l₁ l₂ L''
      rw [Proquint.from_str, if_pos hd,
        splitOn_dash_intercalate _ (by simp) (fun x hx => validLabel_no_dash x (h x hx)),
        append_labels_checked_of_valid _ _ h]
      simp

theorem from_str_flatten (L : List (List Nat)) (h : ∀ l ∈ L, validLabel l = true) :
    Proquint.from_str L.flatten = .ok (Proquint.mk L.flatten) := by
  have hnod : ¬ (L.flatten.contains 45 = true) := by
    simp only [List.contains, List.elem_eq_mem, decide_eq_true_eq]
    intro hm
    obtain ⟨l, hl, hml⟩ := List.mem_flatten.1 hm
    exact validLabel_no_dash l (h l hl) hml
  rw [Proquint.from_str, if_neg hnod,
    chunks5_flatten _ (fun l hl => validLabel_length l (h l hl)),
    append_labels_of_valid _ _ h]
  simp

/-! ## Decoding an encoded label sequence -/

theorem decode_chunks_encode (S : List Nat) (h : ∀ v ∈ S, v < 65536) :
    decode_chunks (S.map encodeLabel) = some S := by
  induction S with
  | nil => rfl
  | cons v S ih =>
    simp only [List.map_cons, decode_chunks, decode_encode v (h v (by simp)),
      ih (fun x hx => h x (by simp [hx]))]

theorem chunks5_map_encode (S : List Nat) :
    chunks5 ((S.map encodeLabel).flatten) = S.map encodeLabel := by
  apply chunks5_flatten
  intro l hl
  obtain ⟨v, _, rfl⟩ := List.mem_map.1 hl
  exact encodeLabel_length v

/-! ## Claim C2 -/

/-- C2: for every non-empty sequence `S` of 16-bit values, encoding
(`from_slice`), rendering (`Display`), parsing back (`FromStr`) and
extracting (`to_ints`) yields exactly `S`. -/
theorem proquint_C2 :
    ∀ S : List Nat, S ≠ [] → (∀ v ∈ S, v < 65536) →
      Proquint.from_str (Proquint.to_text (Proquint.from_slice S))
        = .ok (Proquint.from_slice S) ∧
      Proquint.to_ints (Proquint.from_slice S) = some S := by
  intro S _ hb
  have hvalid : ∀ l ∈ S.map encodeLabel, validLabel l = true := by
    intro l hl
    obtain ⟨v, _, rfl⟩ := List.mem_map.1 hl
    exact encodeLabel_valid v
  constructor
  · rw [to_text_eq, from_slice_inner, chunks5_map_encode,
      from_str_intercalate _ hvalid, ← from_slice_inner]
  · rw [Proquint.to_ints, from_slice_inner, chunks5_map_encode, decode_chunks_encode S hb]

/-- C2 witness at `S = [0, 65535]`. -/
theorem proquint_C2_witness :
    Proquint.from_str (Proquint.to_text (Proquint.from_slice [0, 65535]))
      = .ok (Proquint.from_slice [0, 65535]) ∧
    Proquint.to_ints (Proquint.from_slice [0, 65535]) = some [0, 65535] :=
  proquint_C2 [0, 65535] (by decide) (by decide)

/-! ## Claim C7 -/

/-- C7: parsing is delimiter-insensitive — for a well-formed sequence of
labels, the dash-separated text and the dash-free text parse to equal
identifiers (both to the identifier holding exactly those labels). -/
theorem proquint_C7 :
    ∀ L : List (List Nat), (∀ l ∈ L, validLabel l = true) →
      Proquint.from_str (List.intercalate [45] L) = Proquint.from_str L.flatten ∧
      Proquint.from_str (List.intercalate [45] L) = .ok (Proquint.mk L.flatten) := by
  intro L h
  have h2 := from_str_intercalate L h
  have h3 := from_str_flatten L h
  exact ⟨h2.trans h3.symm, h2⟩

/-- C7 witness at the labels of `"babab-babad"` (so parsing `"babab-babad"`
and `"bababbabad"` agree). -/
theorem proquint_C7_witness :
    Proquint.from_str (List.intercalate [45] [[98, 97, 98, 97, 98], [98, 97, 98, 97, 100]])
      = Proquint.from_str ([[98, 97, 98, 97, 98], [98, 97, 98, 97, 100]] : List (List Nat)).flatten ∧
    Proquint.from_str (List.intercalate [45] [[98, 97, 98, 97, 98], [98, 97, 98, 97, 100]])
      = .ok (Proquint.mk ([[98, 97, 98, 97, 98], [98, 97, 98, 97, 100]] : List (List Nat)).flatten) :=
  proquint_C7 [[98, 97, 98, 97, 98], [98, 97, 98, 97, 100]] (by decide)

/-! ## Claim C10 -/

/-- C10: parsing the empty string succeeds, yielding the identifier with no
labels, whose `to_ints` is the empty sequence and whose rendering is the
empty string. -/
theorem proquint_C10 :
    Proquint.from_str ([] : List Nat) = .ok (Proquint.mk []) ∧
    Proquint.to_ints (Proquint.mk []) = some [] ∧
    Proquint.to_text (Proquint.mk []) = ([] : List Nat) :=
  ⟨by decide, by decide, by decide⟩

/-! ## Claim C3 -/

/-- C3: `quint_to_ascii` splits its 16-bit argument into five fields,
most-significant first — bits [15:12], [11:10], [9:6], [5:4], [3:0] —
mapped through the alphabet tables; it is total (appends exactly 5 bytes,
with every table index in range), and `encode_u16(0) = "babab"`,
`encode_u16(1) = "babad"`, `encode_u16(0xffff) = "zuzuz"`. -/
theorem proquint_C3 :
    (∀ (u : Nat) (out : List Nat), u < 65536 →
      quint_to_ascii u out = out ++
        [UINT2CONSONANT.getD (u / 4096) 0, UINT2VOWEL.getD (u / 1024 % 4) 0,
         UINT2CONSONANT.getD (u / 64 % 16) 0, UINT2VOWEL.getD (u / 16 % 4) 0,
         UINT2CONSONANT.getD (u % 16) 0] ∧
      u / 4096 < 16 ∧ u / 1024 % 4 < 4 ∧ u / 64 % 16 < 16 ∧ u / 16 % 4 < 4 ∧ u % 16 < 16 ∧
      (quint_to_ascii u out).length = out.length + 5) ∧
    quint_to_ascii 0 [] = [98, 97, 98, 97, 98] ∧
    quint_to_ascii 1 [] = [98, 97, 98, 97, 100] ∧
    quint_to_ascii 65535 [] = [122, 117, 122, 117, 122] := by
  refine ⟨?_, by decide, by decide, by decide⟩
  intro u out hu
  have hd : u / 4096 % 16 = u / 4096 := Nat.mod_eq_of_lt (by omega)
  refine ⟨?_, by omega, by omega, by omega, by omega, by omega, by simp [quint_to_ascii]⟩
  rw [quint_to_ascii_eq, encodeLabel_eq, hd]

/-- C3 witness at `u = 5`, `out = []`. -/
theorem proquint_C3_witness :
    quint_to_ascii 5 [] = [] ++
      [UINT2CONSONANT.getD (5 / 4096) 0, UINT2VOWEL.getD (5 / 1024 % 4) 0,
       UINT2CONSONANT.getD (5 / 64 % 16) 0, UINT2VOWEL.getD (5 / 16 % 4) 0,
       UINT2CONSONANT.getD (5 % 16) 0] ∧
    5 / 4096 < 16 ∧ 5 / 1024 % 4 < 4 ∧ 5 / 64 % 16 < 16 ∧ 5 / 16 % 4 < 4 ∧ 5 % 16 < 16 ∧
    (quint_to_ascii 5 []).length = List.length ([] : List Nat) + 5 :=
  proquint_C3.1 5 [] (by decide)

/-! ## Wide-encoder masks -/

theorem mask_hi32 (v : Nat) : (0xffff0000 &&& v) >>> 16 = v / 65536 % 65536 := by
  have h := and_mask_shift 16 16 v
  rw [Nat.shiftLeft_eq] at h
  norm_num at h
  exact h

theorem mask_lo16 (v : Nat) : 0x0000ffff &&& v = v % 65536 := by
  have h := Nat.and_pow_two_sub_one_eq_mod v 16
  norm_num at h
  rw [Nat.and_comm]
  exact h

theorem mask_hi64 (v : Nat) :
    (0xffff000000000000 &&& v) >>> 48 = v / 281474976710656 % 65536 := by
  have h := and_mask_shift 16 48 v
  rw [Nat.shiftLeft_eq] at h
  norm_num at h
  exact h

theorem mask_mid64 (v : Nat) :
    (0x0000ffff00000000 &&& v) >>> 32 = v / 4294967296 % 65536 := by
  have h := and_mask_shift 16 32 v
  rw [Nat.shiftLeft_eq] at h
  norm_num at h
  exact h

theorem shiftLeft8_or_eq (a b : Nat) (h : b < 256) : (a <<< 8) ||| b = a * 256 + b := by
  apply Nat.eq_of_testBit_eq
  intro i
  rw [show a * 256 = 2 ^ 8 * a by ring,
    Nat.testBit_mul_pow_two_add a (show b < 2 ^ 8 by omega) i]
  simp only [Nat.testBit_or, Nat.testBit_shiftLeft]
  by_cases hc : i < 8
  · simp [hc, show ¬ (8 ≤ i) by omega]
  · have hb : b.testBit i = false := Nat.testBit_lt_two_pow
      (lt_of_lt_of_le h (by
        calc (256 : Nat) = 2 ^ 8 := by norm_num
        _ ≤ 2 ^ i := Nat.pow_le_pow_right (by norm_num) (by omega)))
    simp [hc, show 8 ≤ i by omega, hb]

/-! ## Claim C4 -/

/-- C4: the wide encoders split into 16-bit words most-significant first —
a `u32` into `[v >> 16, v & 0xffff]`, a `u64` into four words, an IPv4
address into `(octet0<<8 | octet1, octet2<<8 | octet3)` — and the fixtures
`encode_wide(0) = "babab-babab"`, `encode_wide(1) = "babab-babad"`,
`encode_wide64(1) = "babab-babab-babab-babad"`,
`encode_ipv4(127.0.0.1) = "lusab-babad"` hold. -/
theorem proquint_C4 :
    (∀ (v : Nat) (p : Proquint), v < 4294967296 →
      u32_into_proquint v p = (p.append (v / 65536)).append (v % 65536)) ∧
    (∀ (v : Nat) (p : Proquint), v < 18446744073709551616 →
      u64_into_proquint v p =
        (((p.append (v / 281474976710656)).append
          (v / 4294967296 % 65536)).append (v / 65536 % 65536)).append (v % 65536)) ∧
    (∀ (o0 o1 o2 o3 : Nat) (p : Proquint), o1 < 256 → o3 < 256 →
      ipv4_into_proquint o0 o1 o2 o3 p =
        (p.append (o0 * 256 + o1)).append (o2 * 256 + o3)) ∧
    Proquint.to_text (u32_as_proquint 0) =
      [98, 97, 98, 97, 98, 45, 98, 97, 98, 97, 98] ∧
    Proquint.to_text (u32_as_proquint 1) =
      [98, 97, 98, 97, 98, 45, 98, 97, 98, 97, 100] ∧
    Proquint.to_text (u64_as_proquint 1) =
      [98, 97, 98, 97, 98, 45, 98, 97, 98, 97, 98, 45,
       98, 97, 98, 97, 98, 45, 98, 97, 98, 97, 100] ∧
    Proquint.to_text (ipv4_as_proquint 127 0 0 1) =
      [108, 117, 115, 97, 98, 45, 98, 97, 98, 97, 100] := by
  refine ⟨?_, ?_, ?_, by decide, by decide, by decide, by decide⟩
  · intro v p hv
    rw [u32_into_proquint, mask_hi32, mask_lo16,
      Nat.mod_eq_of_lt (show v / 65536 < 65536 by omega)]
  · intro v p hv
    rw [u64_into_proquint, mask_hi64, mask_mid64, mask_hi32, mask_lo16,
      Nat.mod_eq_of_lt (show v / 281474976710656 < 65536 by omega)]
  · intro o0 o1 o2 o3 p h1 h3
    rw [ipv4_into_proquint, shiftLeft8_or_eq o0 o1 h1, shiftLeft8_or_eq o2 o3 h3]

/-- C4 witness at `v = 65537 (u32)`, `v = 3 (u64)`, address `127.0.0.1`. -/
theorem proquint_C4_witness :
    u32_into_proquint 65537 (Proquint.mk []) =
      ((Proquint.mk []).append (65537 / 65536)).append (65537 % 65536) ∧
    u64_into_proquint 3 (Proquint.mk []) =
      ((((Proquint.mk []).append (3 / 281474976710656)).append
        (3 / 4294967296 % 65536)).append (3 / 65536 % 65536)).append (3 % 65536) ∧
    ipv4_into_proquint 127 0 0 1 (Proquint.mk []) =
      ((Proquint.mk []).append (127 * 256 + 0)).append (0 * 256 + 1) :=
  ⟨proquint_C4.1 65537 (Proquint.mk []) (by decide),
   proquint_C4.2.1 3 (Proquint.mk []) (by decide),
   proquint_C4.2.2.1 127 0 0 1 (Proquint.mk []) (by decide) (by decide)⟩

/-! ## Claim C5 -/

/-- The alphabet expected at position `i` of a label: consonants at even
positions (0, 2, 4), vowels at odd positions (1, 3). -/
def alphaOK (i c : Nat) : Bool :=
  if i % 2 = 0 then UINT2CONSONANT.contains c else UINT2VOWEL.contains c

/-- C5: label decoding validates each character against the alphabet expected
at its position; with no mismatch it succeeds, and at the first mismatch
(left to right) it fails with `InvalidConsonant`/`InvalidVowel` carrying the
offending character; `parse("XXXXX")` fails with `InvalidConsonant('X')` and
`parse("bbbbb")` with `InvalidVowel('b')`. -/
theorem proquint_C5 :
    (∀ (inner label : List Nat), label.length = 5 →
      (label.enum.find? (fun q => !alphaOK q.1 q.2) = none →
        Proquint.append_label inner label = .ok (inner ++ label)) ∧
      (∀ j c, label.enum.find? (fun q => !alphaOK q.1 q.2) = some (j, c) →
        Proquint.append_label inner label =
          .error (if j % 2 = 0 then ProquintError.InvalidConsonant c
                  else ProquintError.InvalidVowel c))) ∧
    Proquint.from_str [88, 88, 88, 88, 88] = .error (ProquintError.InvalidConsonant 88) ∧
    Proquint.from_str [98, 98, 98, 98, 98] = .error (ProquintError.InvalidVowel 98) := by
  refine ⟨?_, by decide, by decide⟩
  intro inner label h5
  obtain ⟨a, b, c, d, e, rfl⟩ := exists_five label h5
  by_cases c0 : a ∈ UINT2CONSONANT
  · by_cases c1 : b ∈ UINT2VOWEL
    · by_cases c2 : c ∈ UINT2CONSONANT
      · by_cases c3 : d ∈ UINT2VOWEL
        · by_cases c4 : e ∈ UINT2CONSONANT
          · constructor
            · intro _
              exact append_label_of_valid inner _
                ((validLabel_five a b c d e).2 ⟨c0, c1, c2, c3, c4⟩)
            · intro j ch hsome
              simp [List.enum, List.enumFrom, List.find?, alphaOK,
                c0, c1, c2, c3, c4] at hsome
          · constructor
            · intro hnone
              simp [List.enum, List.enumFrom, List.find?, alphaOK,
                c0, c1, c2, c3, c4] at hnone
            · intro j ch hsome
              simp [List.enum, List.enumFrom, List.find?, alphaOK,
                c0, c1, c2, c3, c4] at hsome
              obtain ⟨rfl, rfl⟩ := hsome
              simp [Proquint.append_label, c0, c1, c2, c3, c4]
        · constructor
          · intro hnone
            simp [List.enum, List.enumFrom, List.find?, alphaOK,
              c0, c1, c2, c3] at hnone
          · intro j ch hsome
            simp [List.enum, List.enumFrom, List.find?, alphaOK,
              c0, c1, c2, c3] at hsome
            obtain ⟨rfl, rfl⟩ := hsome
            simp [Proquint.append_label, c0, c1, c2, c3]
      · constructor
        · intro hnone
          simp [List.enum, List.enumFrom, List.find?, alphaOK, c0, c1, c2] at hnone
        · intro j ch hsome
          simp [List.enum, List.enumFrom, List.find?, alphaOK, c0, c1, c2] at hsome
          obtain ⟨rfl, rfl⟩ := hsome
          simp [Proquint.append_label, c0, c1, c2]
    · constructor
      · intro hnone
        simp [List.enum, List.enumFrom, List.find?, alphaOK, c0, c1] at hnone
      · intro j ch hsome
        simp [List.enum, List.enumFrom, List.find?, alphaOK, c0, c1] at hsome
        obtain ⟨rfl, rfl⟩ := hsome
        simp [Proquint.append_label, c0, c1]
  · constructor
    · intro hnone
      simp [List.enum, List.enumFrom, List.find?, alphaOK, c0] at hnone
    · intro j ch hsome
      simp [List.enum, List.enumFrom, List.find?, alphaOK, c0] at hsome
      obtain ⟨rfl, rfl⟩ := hsome
      simp [Proquint.append_label, c0]

/-- C5 witness: on `"bbbbb"` the first mismatch is the vowel position 1
holding `'b'`, and `append_label` reports `InvalidVowel('b')`. -/
theorem proquint_C5_witness :
    Proquint.append_label [] [98, 98, 98, 98, 98] =
      .error (if 1 % 2 = 0 then ProquintError.InvalidConsonant 98
              else ProquintError.InvalidVowel 98) :=
  (proquint_C5.1 [] [98, 98, 98, 98, 98] (by decide)).2 1 98 (by decide)

/-! ## Claim C6 -/

/-- The segments `from_str` validates: the dash-split pieces when a dash is
present, the consecutive 5-byte chunks otherwise. -/
def segments (s : List Nat) : List (List Nat) :=
  if s.contains 45 then s.splitOn 45 else chunks5 s

/-- The extra per-segment length pre-check of the separator branch is
redundant: `append_label` performs the same check first. -/
theorem append_labels_checked_eq (L : List (List Nat)) (inner : List Nat) :
    append_labels_checked inner L = append_labels inner L := by
  induction L generalizing inner with
  | nil => rfl
  | cons l ls ih =>
    by_cases h5 : l.length = 5
    · rw [append_labels_checked, append_labels, if_neg (by omega)]
      cases hstep : Proquint.append_label inner l with
      | ok inner2 => simpa using ih inner2
      | error e => rfl
    · rw [append_labels_checked, append_labels, if_pos h5,
        append_label_len_err inner l h5]

theorem append_labels_len_err_iff (L : List (List Nat)) (inner : List Nat) :
    append_labels inner L = .error ProquintError.InvalidLabelLength ↔
      ∃ j, j < L.length ∧ (L.getD j []).length ≠ 5 ∧
        ∀ i, i < j → validLabel (L.getD i []) = true := by
  induction L generalizing inner with
  | nil => simp [append_labels]
  | cons l ls ih =>
    by_cases hv : validLabel l = true
    · have hlen := validLabel_length l hv
      rw [show append_labels inner (l :: ls) = append_labels (inner ++ l) ls from by
          simp [append_labels, append_label_of_valid inner l hv],
        ih (inner ++ l)]
      constructor
      · rintro ⟨j, hj, hne, hpre⟩
        refine ⟨j + 1, by simpa using Nat.succ_lt_succ hj, by simpa using hne, ?_⟩
        intro i hi
        cases i with
        | zero => simpa using hv
        | succ i' => simpa using hpre i' (by omega)
      · rintro ⟨j, hj, hne, hpre⟩
        cases j with
        | zero => exact absurd hlen (by simpa using hne)
        | succ j' =>
          refine ⟨j', by simpa using hj, by simpa using hne, ?_⟩
          intro i hi
          simpa using hpre (i + 1) (by omega)
    · by_cases h5 : l.length = 5
      · obtain ⟨e, he, hne⟩ := append_label_err_shape inner l h5 (by simpa using hv)
        rw [show append_labels inner (l :: ls) = .error e from by simp [append_labels, he]]
        constructor
        · intro h
          exact absurd (by injection h) hne
        · rintro ⟨j, hj, hjne, hpre⟩
          cases j with
          | zero => exact absurd h5 (by simpa using hjne)
          | succ j' => exact absurd (by simpa using hpre 0 (by omega)) (by simp [hv])
      · rw [show append_labels inner (l :: ls) = .error .InvalidLabelLength from by
          simp [append_labels, append_label_len_err inner l h5]]
        constructor
        · intro _
          exact ⟨0, by simp, by simpa using h5, fun i hi => absurd hi (by omega)⟩
        · intro _
          rfl

theorem from_str_err_iff (s : List Nat) (e : ProquintError) :
    Proquint.from_str s = .error e ↔
      (if s.contains 45 then append_labels_checked [] (s.splitOn 45)
       else append_labels [] (chunks5 s)) = .error e := by
  rw [Proquint.from_str]
  by_cases hd : s.contains 45 = true
  · rw [if_pos hd, if_pos hd]
    cases hres : append_labels_checked [] (s.splitOn 45) <;> simp
  · rw [if_neg hd, if_neg hd]
    cases hres : append_labels [] (chunks5 s) <;> simp

/-- C6 (amended): `from_str` fails with `InvalidLabelLength` exactly when
some segment is not 5 characters long AND every segment before it is a
fully valid label — the fold surfaces the first error left to right, so an
earlier invalid-character segment wins over a later bad-length segment. -/
theorem proquint_C6 :
    ∀ s : List Nat,
      Proquint.from_str s = .error ProquintError.InvalidLabelLength ↔
        ∃ j, j < (segments s).length ∧ ((segments s).getD j []).length ≠ 5 ∧
          ∀ i, i < j → validLabel ((segments s).getD i []) = true := by
  intro s
  rw [from_str_err_iff, segments]
  by_cases hd : s.contains 45 = true
  · rw [if_pos hd, if_pos hd, append_labels_checked_eq]
    exact append_labels_len_err_iff _ []
  · rw [if_neg hd, if_neg hd]
    exact append_labels_len_err_iff _ []

/-- C6 counterexample: in `"XXXXX-b"` separators are present and the segment
`"b"` has length ≠ 5 (mixed delimiter use), yet parsing fails with
`InvalidConsonant('X')` — not `InvalidLabelLength` as the claim states —
because the first segment fails character validation first. -/
theorem proquint_C6_counterexample :
    (∃ seg ∈ segments [88, 88, 88, 88, 88, 45, 98], seg.length ≠ 5) ∧
    Proquint.from_str [88, 88, 88, 88, 88, 45, 98] =
      .error (ProquintError.InvalidConsonant 88) ∧
    Proquint.from_str [88, 88, 88, 88, 88, 45, 98] ≠
      .error ProquintError.InvalidLabelLength := by
  refine ⟨⟨[98], by decide, by decide⟩, by decide, by decide⟩

/-- C6 witness: `parse("XXX")` (no separators, length not a multiple of 5,
offending chunk first) fails with `InvalidLabelLength`, via the amended
equivalence. -/
theorem proquint_C6_witness :
    Proquint.from_str [88, 88, 88] = .error ProquintError.InvalidLabelLength :=
  (proquint_C6 [88, 88, 88]).2
    ⟨0, by decide, by decide, fun i hi => absurd hi (by omega)⟩

/-! ## The position invariant on stored bytes -/

/-- Position invariant (C9): the byte count is a multiple of 5, a
consonant-alphabet byte sits at every position ≡ 0, 2, 4 (mod 5) and a
vowel-alphabet byte at every position ≡ 1, 3 (mod 5). -/
def posValid (inner : List Nat) : Prop :=
  inner.length % 5 = 0 ∧ ∀ i, i < inner.length →
    ((i % 5 = 0 ∨ i % 5 = 2 ∨ i % 5 = 4) →
      UINT2CONSONANT.contains (inner.getD i 0) = true) ∧
    ((i % 5 = 1 ∨ i % 5 = 3) → UINT2VOWEL.contains (inner.getD i 0) = true)

instance posValid_decidable (inner : List Nat) : Decidable (posValid inner) := by
  unfold posValid
  infer_instance

theorem label_pos (l : List Nat) (hv : validLabel l = true) :
    ∀ j, j < 5 →
      ((j % 5 = 0 ∨ j % 5 = 2 ∨ j % 5 = 4) →
        UINT2CONSONANT.contains (l.getD j 0) = true) ∧
      ((j % 5 = 1 ∨ j % 5 = 3) → UINT2VOWEL.contains (l.getD j 0) = true) := by
  obtain ⟨a, b, c, d, e, rfl⟩ := exists_five l (validLabel_length l hv)
  obtain ⟨h0, h1, h2, h3, h4⟩ := (validLabel_five a b c d e).1 hv
  intro j hj
  interval_cases j <;>
    refine ⟨fun hm => ?_, fun hm => ?_⟩ <;>
      first
        | exact absurd hm (by decide)
        | simp [List.contains, h0, h1, h2, h3, h4]

theorem posValid_append (inner l : List Nat) (h : posValid inner)
    (hv : validLabel l = true) : posValid (inner ++ l) := by
  obtain ⟨hm, hp⟩ := h
  have hl5 : l.length = 5 := validLabel_length l hv
  constructor
  · rw [List.length_append, hl5]
    omega
  · intro i hi
    rw [List.length_append, hl5] at hi
    by_cases hcase : i < inner.length
    · rw [List.getD_append _ _ _ _ hcase]
      exact hp i hcase
    · push_neg at hcase
      rw [List.getD_append_right _ _ _ _ hcase,
        show i % 5 = (i - inner.length) % 5 by omega]
      exact label_pos l hv _ (by omega)

theorem posValid_prepend (l rest : List Nat) (hv : validLabel l = true)
    (h : posValid rest) : posValid (l ++ rest) := by
  obtain ⟨hm, hp⟩ := h
  have hl5 : l.length = 5 := validLabel_length l hv
  constructor
  · rw [List.length_append, hl5]
    omega
  · intro i hi
    by_cases hcase : i < l.length
    · rw [List.getD_append _ _ _ _ hcase]
      exact label_pos l hv i (by omega)
    · push_neg at hcase
      rw [List.getD_append_right _ _ _ _ hcase,
        show i % 5 = (i - l.length) % 5 by omega]
      exact hp _ (by rw [List.length_append] at hi; omega)

theorem posValid_flatten (L : List (List Nat)) (h : ∀ l ∈ L, validLabel l = true) :
    posValid L.flatten := by
  induction L with
  | nil => exact ⟨rfl, fun i hi => absurd hi (by simp)⟩
  | cons l Ls ih =>
    rw [List.flatten_cons]
    exact posValid_prepend l _ (h l (by simp)) (ih (fun x hx => h x (by simp [hx])))

theorem posValid_tail (l rest : List Nat) (h5 : l.length = 5)
    (h : posValid (l ++ rest)) : validLabel l = true ∧ posValid rest := by
  obtain ⟨hm, hp⟩ := h
  rw [List.length_append, h5] at hm
  have hlen : (l ++ rest).length = 5 + rest.length := by rw [List.length_append, h5]
  have g : ∀ i, i < 5 → (l ++ rest).getD i 0 = l.getD i 0 := fun i hi =>
    List.getD_append _ _ _ _ (by omega)
  constructor
  · rw [validLabel_iff]
    refine ⟨h5, ?_, ?_, ?_, ?_, ?_⟩
    · have := (hp 0 (by omega)).1 (by omega)
      rwa [g 0 (by omega)] at this
    · have := (hp 1 (by omega)).2 (by omega)
      rwa [g 1 (by omega)] at this
    · have := (hp 2 (by omega)).1 (by omega)
      rwa [g 2 (by omega)] at this
    · have := (hp 3 (by omega)).2 (by omega)
      rwa [g 3 (by omega)] at this
    · have := (hp 4 (by omega)).1 (by omega)
      rwa [g 4 (by omega)] at this
  · refine ⟨by omega, ?_⟩
    intro j hj
    have := hp (l.length + j) (by omega)
    rw [List.getD_append_right _ _ _ _ (by omega),
      show l.length + j - l.length = j by omega,
      show (l.length + j) % 5 = j % 5 by omega] at this
    exact this

theorem posValid_chunks_valid : ∀ (n : Nat) (inner : List Nat), inner.length ≤ n →
    posValid inner → ∀ c ∈ chunks5 inner, validLabel c = true := by
  intro n
  induction n with
  | zero =>
    intro inner hle _ c hc
    rw [List.eq_nil_of_length_eq_zero (show inner.length = 0 by omega)] at hc
    simp [chunks5] at hc
  | succ n ih =>
    intro inner hle h c hc
    rcases inner with _ | ⟨a, _ | ⟨b, _ | ⟨c', _ | ⟨d, _ | ⟨e, rest⟩⟩⟩⟩⟩
    · simp [chunks5] at hc
    · exact absurd h.1 (by simp)
    · exact absurd h.1 (by simp)
    · exact absurd h.1 (by simp)
    · exact absurd h.1 (by simp)
    · obtain ⟨hv, hrest⟩ := posValid_tail [a, b, c', d, e] rest rfl h
      rw [show (a :: b :: c' :: d :: e :: rest : List Nat) = [a, b, c', d, e] ++ rest
          from rfl, chunks5_append5 [a, b, c', d, e] rest rfl] at hc
      rcases List.mem_cons.1 hc with rfl | hc
      · exact hv
      · exact ih rest (by simp at hle; omega) hrest c hc

/-! ## Valid identifiers decode without reaching the panic branch -/

theorem vow_not_cons : ∀ c ∈ UINT2VOWEL, c ∉ UINT2CONSONANT := by decide

theorem decode_step_mem_cons (val c : Nat) (hc : c ∈ UINT2CONSONANT) :
    decode_step val c =
      some (((val <<< 4) + UINT2CONSONANT.findIdx (fun x => x == c)) % 65536) := by
  rw [decode_step, if_pos (by simp [List.contains, hc])]

theorem decode_step_mem_vow (val c : Nat) (hc : c ∈ UINT2VOWEL) :
    decode_step val c =
      some (((val <<< 2) + UINT2VOWEL.findIdx (fun x => x == c)) % 65536) := by
  rw [decode_step, if_neg (by simp [List.contains, vow_not_cons c hc]),
    if_pos (by simp [List.contains, hc])]

theorem decode_label_valid_isSome (l : List Nat) (hv : validLabel l = true) :
    ∃ v, decode_label l = some v := by
  obtain ⟨a, b, c, d, e, rfl⟩ := exists_five l (validLabel_length l hv)
  obtain ⟨h0, h1, h2, h3, h4⟩ := (validLabel_five a b c d e).1 hv
  refine Option.isSome_iff_exists.mp ?_
  simp only [decode_label, decode_chars, decode_step_mem_cons _ _ h0,
    decode_step_mem_vow _ _ h1, decode_step_mem_cons _ _ h2,
    decode_step_mem_vow _ _ h3, decode_step_mem_cons _ _ h4, Option.isSome_some]

theorem decode_chunks_valid_isSome (cs : List (List Nat))
    (h : ∀ c ∈ cs, validLabel c = true) : ∃ vs, decode_chunks cs = some vs := by
  induction cs with
  | nil => exact ⟨[], rfl⟩
  | cons c cs ih =>
    obtain ⟨v, hv⟩ := decode_label_valid_isSome c (h c (by simp))
    obtain ⟨vs, hvs⟩ := ih (fun x hx => h x (by simp [hx]))
    exact ⟨v :: vs, by simp only [decode_chunks, hv, hvs]⟩

theorem from_str_posValid (s : List Nat) (p : Proquint)
    (h : Proquint.from_str s = .ok p) : posValid p.inner := by
  rw [Proquint.from_str] at h
  by_cases hd : s.contains 45 = true
  · rw [if_pos hd] at h
    cases hres : append_labels_checked [] (s.splitOn 45) with
    | error e => rw [hres] at h; exact absurd h (by simp)
    | ok inner =>
      rw [hres] at h
      obtain ⟨hall, hout⟩ := append_labels_checked_ok_inv _ _ _ hres
      obtain rfl : Proquint.mk inner = p := by simpa using h
      rw [show (Proquint.mk inner).inner = inner from rfl, hout, List.nil_append]
      exact posValid_flatten _ hall
  · rw [if_neg hd] at h
    cases hres : append_labels [] (chunks5 s) with
    | error e => rw [hres] at h; exact absurd h (by simp)
    | ok inner =>
      rw [hres] at h
      obtain ⟨hall, hout⟩ := append_labels_ok_inv _ _ _ hres
      obtain rfl : Proquint.mk inner = p := by simpa using h
      rw [show (Proquint.mk inner).inner = inner from rfl, hout, List.nil_append]
      exact posValid_flatten _ hall

/-! ## Chunking and decoding across appends -/

theorem chunks5_append_mul : ∀ (n : Nat) (inner : List Nat), inner.length ≤ n →
    inner.length % 5 = 0 → ∀ r, chunks5 (inner ++ r) = chunks5 inner ++ chunks5 r := by
  intro n
  induction n with
  | zero =>
    intro inner hle _ r
    rw [List.eq_nil_of_length_eq_zero (show inner.length = 0 by omega)]
    simp [chunks5]
  | succ n ih =>
    intro inner hle h r
    rcases inner with _ | ⟨a, _ | ⟨b, _ | ⟨c, _ | ⟨d, _ | ⟨e, rest⟩⟩⟩⟩⟩
    · simp [chunks5]
    · exact absurd h (by simp)
    · exact absurd h (by simp)
    · exact absurd h (by simp)
    · exact absurd h (by simp)
    · rw [show (a :: b :: c :: d :: e :: rest : List Nat) ++ r
          = [a, b, c, d, e] ++ (rest ++ r) from by simp,
        chunks5_append5 [a, b, c, d, e] (rest ++ r) rfl,
        show (a :: b :: c :: d :: e :: rest : List Nat) = [a, b, c, d, e] ++ rest from rfl,
        chunks5_append5 [a, b, c, d, e] rest rfl,
        ih rest (by simp at hle; omega) (by simp at h; omega) r,
        List.cons_append]

theorem decode_chunks_append (cs ds : List (List Nat)) (vs ws : List Nat)
    (hcs : decode_chunks cs = some vs) (hds : decode_chunks ds = some ws) :
    decode_chunks (cs ++ ds) = some (vs ++ ws) := by
  induction cs generalizing vs with
  | nil =>
    obtain rfl : vs = [] := by simpa [decode_chunks] using hcs.symm
    simpa using hds
  | cons c cs ih =>
    simp only [decode_chunks] at hcs
    cases hl : decode_label c with
    | none => rw [hl] at hcs; exact absurd hcs (by simp)
    | some v =>
      rw [hl] at hcs
      cases hrest : decode_chunks cs with
      | none => rw [hrest] at hcs; exact absurd hcs (by simp)
      | some vs' =>
        rw [hrest] at hcs
        obtain rfl : vs = v :: vs' := by simpa using hcs.symm
        rw [List.cons_append]
        simp only [decode_chunks, hl, ih vs' hrest, List.cons_append]

/-! ## Claim C8 -/

/-- C8: `append` extends the identifier monotonically: the stored bytes grow
by exactly the new label, leaving the previous bytes an unchanged prefix,
and `to_ints` afterwards equals the old value sequence with `v` appended. -/
theorem proquint_C8 :
    ∀ (p : Proquint) (v : Nat), posValid p.inner → v < 65536 →
      (p.append v).inner = p.inner ++ quint_to_ascii v [] ∧
      ∃ xs, Proquint.to_ints p = some xs ∧
        Proquint.to_ints (p.append v) = some (xs ++ [v]) := by
  intro p v hpos hv
  have hinner : (p.append v).inner = p.inner ++ encodeLabel v := quint_to_ascii_eq v p.inner
  refine ⟨hinner, ?_⟩
  have hall := posValid_chunks_valid p.inner.length p.inner (le_refl _) hpos
  obtain ⟨xs, hxs⟩ := decode_chunks_valid_isSome _ hall
  refine ⟨xs, hxs, ?_⟩
  rw [Proquint.to_ints, hinner,
    chunks5_append_mul p.inner.length p.inner (le_refl _) hpos.1 _,
    show chunks5 (encodeLabel v) = [encodeLabel v] from by
      simpa using chunks5_append5 (encodeLabel v) [] (encodeLabel_length v)]
  exact decode_chunks_append _ _ _ _ hxs
    (by simp only [decode_chunks, decode_encode v hv])

/-- C8 witness at the identifier `"babab"` and `v = 1`. -/
theorem proquint_C8_witness :
    ((Proquint.mk [98, 97, 98, 97, 98]).append 1).inner
        = [98, 97, 98, 97, 98] ++ quint_to_ascii 1 [] ∧
    ∃ xs, Proquint.to_ints (Proquint.mk [98, 97, 98, 97, 98]) = some xs ∧
      Proquint.to_ints ((Proquint.mk [98, 97, 98, 97, 98]).append 1) = some (xs ++ [1]) :=
  proquint_C8 (Proquint.mk [98, 97, 98, 97, 98]) 1 (by decide) (by decide)

/-! ## Claim C9 -/

/-- C9: every `Proquint` obtainable through the public interface
(`from_vec`, `from_slice`, `from_iter`, `from_str`, `append`) satisfies the
position invariant `posValid` — length a multiple of 5, consonant bytes at
positions ≡ 0, 2, 4 (mod 5), vowel bytes at positions ≡ 1, 3 (mod 5) — and
on any such value `to_ints` never reaches its `panic!` branch (it returns
`some`). -/
theorem proquint_C9 :
    (∀ ints : List Nat, posValid (Proquint.from_vec ints).inner) ∧
    (∀ ints : List Nat, posValid (Proquint.from_slice ints).inner) ∧
    (∀ ints : List Nat, posValid (Proquint.from_iter ints).inner) ∧
    (∀ (s : List Nat) (p : Proquint), Proquint.from_str s = .ok p → posValid p.inner) ∧
    (∀ (p : Proquint) (u : Nat), posValid p.inner → posValid (p.append u).inner) ∧
    (∀ p : Proquint, posValid p.inner → (Proquint.to_ints p).isSome = true) := by
  have hmapvalid : ∀ S : List Nat, ∀ l ∈ S.map encodeLabel, validLabel l = true := by
    intro S l hl
    obtain ⟨v, _, rfl⟩ := List.mem_map.1 hl
    exact encodeLabel_valid v
  refine ⟨?_, ?_, ?_, ?_, ?_, ?_⟩
  · intro S
    rw [from_vec_inner]
    exact posValid_flatten _ (hmapvalid S)
  · intro S
    rw [from_slice_inner]
    exact posValid_flatten _ (hmapvalid S)
  · intro S
    rw [from_iter_inner]
    exact posValid_flatten _ (hmapvalid S)
  · exact from_str_posValid
  · intro p u h
    rw [show (p.append u).inner = p.inner ++ encodeLabel u from quint_to_ascii_eq u p.inner]
    exact posValid_append _ _ h (encodeLabel_valid u)
  · intro p h
    obtain ⟨vs, hvs⟩ := decode_chunks_valid_isSome _
      (posValid_chunks_valid p.inner.length p.inner (le_refl _) h)
    rw [Proquint.to_ints, hvs]
    rfl

/-- C9 witness at the identifier `"babab"`: it is reachable by parsing, its
bytes satisfy the invariant, and `to_ints` succeeds on it. -/
theorem proquint_C9_witness :
    posValid (Proquint.mk [98, 97, 98, 97, 98]).inner ∧
    (Proquint.to_ints (Proquint.mk [98, 97, 98, 97, 98])).isSome = true :=
  ⟨proquint_C9.2.2.2.1 [98, 97, 98, 97, 98] (Proquint.mk [98, 97, 98, 97, 98]) (by decide),
   proquint_C9.2.2.2.2.2 (Proquint.mk [98, 97, 98, 97, 98]) (by decide)⟩

end ProquintSpec
